import Mathlib

/-!
Shallow embedding of `src/models/universal_vocoder.py` (class `UniversalVocoder`).

Modelling conventions:
* Tensors are nested lists, laid out time-major: a batched mel-spectrogram is
  `List (List (List ℚ))` = batch x frames x mel_dim.  The `transpose(1, 2)`
  pairs in the source only change the memory layout around `F.interpolate`;
  the embedding works directly on the time-major view.
* Float arithmetic of the pipeline is modelled by exact rationals; the
  transcendental decompanding stage (source lines 84-85) and the mu-law
  companding law are modelled over `ℝ`.
* The learned GRU cells (whose internals use sigmoid/tanh and are irrelevant
  to every claim) are fields of the structure, i.e. the development quantifies
  over them; the embedding table and the two affine layers are concrete data.
  `expFn` abstracts the exponential inside `F.softmax` (only the shape of the
  softmax output is ever relevant).
* Operations that raise in PyTorch (dimension checks of `nn.GRU`,
  `torch.cat`, `nn.Embedding` range check, `Tensor.item()` on a tensor with
  more than one element) are modelled with `Except String`, carrying the
  corresponding PyTorch error message; an error result carries no output,
  matching the atomic failure of a raised exception.
* `torch.multinomial` on a row of probabilities returns an index into that
  row; the random source is an explicit stream `rng : ℕ → ℕ` and the sampled
  index for row `b` at step `t` is `rng (t * B + b) % row.length`, which
  captures exactly the property the code relies on: a sample from a
  categorical distribution over `row.length` categories is a valid index.
-/

structure UniversalVocoder where
  sample_rate : ℕ
  frames_per_sample : ℕ
  frames_per_slice : ℕ
  mel_dim : ℕ
  mel_rnn_dim : ℕ
  emb_dim : ℕ
  wav_rnn_dim : ℕ
  affine_dim : ℕ
  bits : ℕ
  hop_length : ℕ
  melCellF1 : List ℚ → List ℚ → List ℚ
  melCellB1 : List ℚ → List ℚ → List ℚ
  melCellF2 : List ℚ → List ℚ → List ℚ
  melCellB2 : List ℚ → List ℚ → List ℚ
  wavCell : List ℚ → List ℚ → List ℚ
  embTable : List (List ℚ)
  affineW1 : List (List ℚ)
  affineB1 : List ℚ
  affineW2 : List (List ℚ)
  affineB2 : List ℚ
  expFn : ℚ → ℚ

/-- Source line 27: `self.pad = (frames_per_sample - frames_per_slice) // 2`. -/
def UniversalVocoder.pad (m : UniversalVocoder) : ℕ :=
  (m.frames_per_sample - m.frames_per_slice) / 2

/-- Source line 29: `self.quant_dim = 2 ** bits`. -/
def UniversalVocoder.quantDim (m : UniversalVocoder) : ℕ := 2 ^ m.bits

/-- PyTorch error message of `nn.GRU` on a mismatched feature dimension. -/
def melDimErr : String := "input.size(-1) must be equal to input_size"

/-- PyTorch error message of `nn.Embedding` on an out-of-range index. -/
def embErr : String := "index out of range in self"

/-- PyTorch error message of `torch.cat` on mismatched non-cat dimensions. -/
def catDimErr : String := "Sizes of tensors must match except in the cat dimension"

/-- PyTorch error message of `Tensor.item()` on a multi-element tensor. -/
def itemErr : String := "only one element tensors can be converted to Python scalars"

/-- PyTorch error of `nn.GRU` on a hidden state whose shape differs from the
required `(num_layers, batch, hidden_size)`. -/
def gruHidErr : String := "Expected hidden size (1, batch, wav_rnn_dim), got a mismatched hidden state"

def dot (a b : List ℚ) : ℚ := (List.zipWith (fun x y => x * y) a b).sum

/-- One `nn.Linear`: row-wise dot products plus bias. -/
def linearMap (w : List (List ℚ)) (b : List ℚ) (x : List ℚ) : List ℚ :=
  List.zipWith (fun row bi => dot row x + bi) w b

def relu (v : List ℚ) : List ℚ := v.map (fun x => max 0 x)

/-- Source lines 37-41: `self.affine = Sequential(Linear, ReLU, Linear)`. -/
def UniversalVocoder.affineApply (m : UniversalVocoder) (x : List ℚ) : List ℚ :=
  linearMap m.affineW2 m.affineB2 (relu (linearMap m.affineW1 m.affineB1 x))

/-- Source line 80: `F.softmax(logit, dim=1)`, with `expFn` abstracting `exp`. -/
def UniversalVocoder.softmax (m : UniversalVocoder) (v : List ℚ) : List ℚ :=
  let e := v.map m.expFn
  e.map (fun x => x / e.sum)

/-- Unidirectional recurrent scan: output the hidden state at every step. -/
def rnnScan (cell : List ℚ → List ℚ → List ℚ) : List ℚ → List (List ℚ) → List (List ℚ)
  | _, [] => []
  | h, x :: xs => let h' := cell x h; h' :: rnnScan cell h' xs

/-- One bidirectional GRU layer: concatenate the forward scan with the
reversed scan of the reversed input, per step; hidden states start at zero. -/
def biLayer (cf cb : List ℚ → List ℚ → List ℚ) (h0 : List ℚ)
    (xs : List (List ℚ)) : List (List ℚ) :=
  List.zipWith (fun a b => a ++ b) (rnnScan cf h0 xs) (rnnScan cb h0 xs.reverse).reverse

/-- Source lines 32-34 and 45/60: the two-layer bidirectional `mel_rnn`,
applied to one batch element.  `nn.GRU` raises when the feature dimension of
the input differs from the configured `mel_dim`. -/
def UniversalVocoder.melRNN (m : UniversalVocoder) (frames : List (List ℚ)) :
    Except String (List (List ℚ)) :=
  if ∀ f ∈ frames, f.length = m.mel_dim then
    .ok (biLayer m.melCellF2 m.melCellB2 (List.replicate m.mel_rnn_dim 0)
      (biLayer m.melCellF1 m.melCellB1 (List.replicate m.mel_rnn_dim 0) frames))
  else .error melDimErr

/-- Source line 35/52/75: `nn.Embedding(quant_dim, emb_dim)` lookup; raises on
an out-of-range index. -/
def UniversalVocoder.embedLookup (m : UniversalVocoder) (w : ℕ) :
    Except String (List ℚ) :=
  match m.embTable[w]? with
  | some row => .ok row
  | none => .error embErr

/-- Source lines 49/63: `F.interpolate(mel_embs, scale_factor=float(hop_len))`.
No `mode` argument is passed, so PyTorch uses its default `mode='nearest'`:
with an integer scale factor the output has `frames * hop` steps and step `j`
is a copy of input frame `j / hop`. -/
def upsampleNearest (hop : ℕ) (xs : List (List ℚ)) : List (List ℚ) :=
  (List.range (xs.length * hop)).map (fun j => xs.getD (j / hop) [])

/-- Source line 47: `mel_embs[:, :, self.pad : self.pad + self.frames_per_slice]`
(Python slice semantics: clamped drop/take on the time axis). -/
def UniversalVocoder.trimCond (m : UniversalVocoder) (xs : List (List ℚ)) :
    List (List ℚ) :=
  (xs.drop m.pad).take m.frames_per_slice

/-- Trimming `q` frames from each end of a sequence (the spec's description of
the alignment rule, used to compare against the source's `trimCond`). -/
def trimEachEnd (q : ℕ) (xs : List (List ℚ)) : List (List ℚ) :=
  (xs.drop q).take (xs.length - 2 * q)

/-- List traversal in the `Except` monad, written out structurally: the first
error aborts the whole computation, exactly like a raised exception aborts a
batched PyTorch op. -/
def mapE {α β : Type} (f : α → Except String β) : List α → Except String (List β)
  | [] => .ok []
  | x :: xs =>
    match f x with
    | .error e => .error e
    | .ok y =>
      match mapE f xs with
      | .error e => .error e
      | .ok ys => .ok (y :: ys)

/-- Source lines 43-55: the teacher-forced training forward pass.
`torch.cat(_, dim=2)` requires the batch and time dimensions of `wav_embs`
and `conditions` to agree and raises otherwise. -/
def UniversalVocoder.forward (m : UniversalVocoder) (wavs : List (List ℕ))
    (mels : List (List (List ℚ))) : Except String (List (List (List ℚ))) :=
  match mapE m.melRNN mels with
  | .error e => .error e
  | .ok melEmbs =>
    let conds := melEmbs.map (fun row => upsampleNearest m.hop_length (m.trimCond row))
    match mapE (fun seq => mapE m.embedLookup seq) wavs with
    | .error e => .error e
    | .ok wavEmbs =>
      if wavEmbs.length = conds.length ∧ ∀ p ∈ wavEmbs.zip conds, p.1.length = p.2.length then
        let catted := List.zipWith (List.zipWith (fun a b => a ++ b)) wavEmbs conds
        let wavOuts := catted.map (rnnScan m.wavCell (List.replicate m.wav_rnn_dim 0))
        .ok (wavOuts.map (fun r => r.map m.affineApply))
      else .error catDimErr

/-- State threaded through the generation loop: the `wav_rnn` hidden-state
tensor kept with its full three-dimensional layout (source line 66 allocates
it as `(batch, 1, wav_rnn_dim)`, while the tensor `nn.GRU` returns is
`(num_layers, batch, wav_rnn_dim) = (1, batch, wav_rnn_dim)` — the layout
distinction matters, see `genStep`), the previous sampled categories, and the
scalars written into `wavs` so far. -/
structure GenState where
  hid : List (List (List ℚ))
  wav : List ℕ
  outs : List ℚ

/-- `Tensor.item()`: succeeds only on a single-element tensor. -/
def item : List ℕ → Except String ℕ
  | [w] => .ok w
  | _ => .error itemErr

/-- `torch.multinomial` on one probability row: some valid index of the row. -/
def multinomialRow (p : List ℚ) (r : ℕ) : ℕ := r % p.length

/-- Source lines 74-82: one iteration of the generation loop.  `conds` is the
full upsampled conditioning (batch x time x dim); step `t` reads slice `t` of
every batch row (`torch.unbind(conditions, dim=1)`).

The `self.wav_rnn(input, hid)` call on lines 76-78 first checks that the
carried hidden state has the required shape
`(num_layers, batch, hidden) = (1, batch, wav_rnn_dim)` — with the batch size
taken from the input `torch.cat((wav_emb, condition), dim=1).unsqueeze(1)` —
and raises otherwise.  Since line 66 allocates the initial hidden state as
`(batch, 1, wav_rnn_dim)`, this check fails at the first iteration whenever
`batch >= 2`; the rest of the body is only ever reached with a single batch
element (for which `squeeze(1)` on line 79 collapses the layer axis, the
per-row reading of `affine`/`softmax`/`multinomial` is exact, and `.item()`
on line 82 succeeds because the sampled tensor has one element, its scalar
broadcast into column `t` of the output).  The feature-width checks of
`wav_rnn` are not modelled: the recurrent cell is an abstract parameter with
no fixed width, and no claim depends on them. -/
def UniversalVocoder.genStep (m : UniversalVocoder) (conds : List (List (List ℚ)))
    (rng : ℕ → ℕ) (s : GenState) (t : ℕ) : Except String GenState :=
  match mapE m.embedLookup s.wav with
  | .error e => .error e
  | .ok wavEmb =>
    let condAt := conds.map (fun row => row.getD t [])
    let inputs := List.zipWith (fun a b => a ++ b) wavEmb condAt
    if s.hid.length = 1 ∧ (s.hid.headD []).length = inputs.length then
      let hid2 := [List.zipWith m.wavCell inputs (s.hid.headD [])]
      let posterior := ((hid2.headD []).map m.affineApply).map m.softmax
      let wav2 := (List.range posterior.length).map
        (fun b => multinomialRow (posterior.getD b []) (rng (t * conds.length + b)))
      match item wav2 with
      | .error e => .error e
      | .ok w => .ok ⟨hid2, wav2, s.outs ++ [2 * (w : ℚ) / ((m.quantDim : ℚ) - 1) - 1]⟩
    else .error gruHidErr

/-- Left fold in the `Except` monad (the sequential generation loop). -/
def foldE {σ : Type} (f : σ → ℕ → Except String σ) : σ → List ℕ → Except String σ
  | s, [] => .ok s
  | s, t :: ts =>
    match f s t with
    | .error e => .error e
    | .ok s2 => foldE f s2 ts

/-- Source lines 58-82: the generation loop up to (and including) the rescaled
values written into `wavs` on line 82, before the final decompanding.
The buffer `wavs` has `mels.size(1) * hop_len` columns; every loop iteration
broadcasts one scalar across the whole column, so after the loop every batch
row equals the list of stored scalars. -/
def UniversalVocoder.generateCompanded (m : UniversalVocoder) (rng : ℕ → ℕ)
    (mels : List (List (List ℚ))) : Except String (List (List ℚ)) :=
  match mapE m.melRNN mels with
  | .error e => .error e
  | .ok melEmbs =>
    let conds := melEmbs.map (fun row => upsampleNearest m.hop_length row)
    let s0 : GenState :=
      ⟨List.replicate mels.length [List.replicate m.wav_rnn_dim 0],
        List.replicate mels.length (m.quantDim / 2), []⟩
    match foldE (m.genStep conds rng) s0 (List.range (conds.headD []).length) with
    | .error e => .error e
    | .ok sF => .ok (List.replicate mels.length sF.outs)

/-- Source line 85: the inverse mu-law transform
`sign(x) / mu * ((1 + mu) ** abs(x) - 1)`, over exact reals. -/
noncomputable def muExpand (μ x : ℝ) : ℝ :=
  Real.sign x / μ * ((1 + μ) ^ |x| - 1)

/-- Source lines 58-87: `generate` = the loop followed by decompanding every
stored value with `mu = quant_dim - 1` (lines 84-85). -/
noncomputable def UniversalVocoder.generate (m : UniversalVocoder) (rng : ℕ → ℕ)
    (mels : List (List (List ℚ))) : Except String (List (List ℝ)) :=
  (m.generateCompanded rng mels).map
    (fun rows => rows.map (fun row => row.map
      (fun q : ℚ => muExpand ((m.quantDim : ℝ) - 1) (q : ℝ))))

/-- Modelled from the spec: the forward mu-law companding law (glossary and
section 4.6 name mu-law companding; the source contains only its inverse),
`F(y) = sign(y) * log(1 + mu * |y|) / log(1 + mu)`. -/
noncomputable def muCompand (μ y : ℝ) : ℝ :=
  Real.sign y * (Real.log (1 + μ * |y|) / Real.log (1 + μ))

/-- Modelled from the spec: section 4.2 describes the upsampler as linear
interpolation with boundary clamping (the `align_corners=False` convention of
`F.interpolate`); the source calls `F.interpolate` without a `mode` argument.
Source coordinate of output step `j` is `(j + 1/2)/hop - 1/2`, clamped below
at `0`; its floor `i0` and `i1 = min (i0+1) (frames-1)` are blended with
weight `w = coordinate - i0`. -/
def upsampleLinearSpec (hop : ℕ) (xs : List (List ℚ)) : List (List ℚ) :=
  (List.range (xs.length * hop)).map (fun j =>
    let i0 : ℕ := if 2 * j + 1 ≤ hop then 0 else (2 * j + 1 - hop) / (2 * hop)
    let i1 : ℕ := min (i0 + 1) (xs.length - 1)
    let w : ℚ := if 2 * j + 1 ≤ hop then 0
      else (2 * (j : ℚ) + 1) / (2 * (hop : ℚ)) - 1 / 2 - (i0 : ℚ)
    List.zipWith (fun a b => (1 - w) * a + w * b) (xs.getD i0 []) (xs.getD i1 []))

/-- A valid configuration: at least one quantization bit, the training slice
fits in the receptive window, and a positive hop length. -/
def UniversalVocoder.ValidConfig (m : UniversalVocoder) : Prop :=
  1 ≤ m.bits ∧ m.frames_per_slice ≤ m.frames_per_sample ∧ 1 ≤ m.hop_length

/-- Well-formed learned parameters: the embedding table has `quant_dim` rows
(`nn.Embedding(quant_dim, emb_dim)`) and the final affine layer has
`quant_dim` output rows (`nn.Linear(affine_dim, quant_dim)`). -/
def UniversalVocoder.ValidParams (m : UniversalVocoder) : Prop :=
  m.embTable.length = m.quantDim ∧ m.affineW2.length = m.quantDim ∧
    m.affineB2.length = m.quantDim

/-- A concrete miniature instance used by witnesses: every width is 1,
`bits = 1` (two categories), window 2, slice 2, hop 2. -/
def Mtest : UniversalVocoder :=
  ⟨1, 2, 2, 1, 1, 1, 1, 1, 1, 2,
    fun _ _ => [0], fun _ _ => [0], fun _ _ => [0], fun _ _ => [0],
    fun _ _ => [0],
    [[0], [0]], [[0]], [0], [[0], [0]], [0, 0],
    fun _ => 1⟩

/-- Like `Mtest` but with window 5 and slice 2 (odd difference). -/
def Mtrim5 : UniversalVocoder :=
  ⟨1, 5, 2, 1, 1, 1, 1, 1, 1, 2,
    fun _ _ => [0], fun _ _ => [0], fun _ _ => [0], fun _ _ => [0],
    fun _ _ => [0],
    [[0], [0]], [[0]], [0], [[0], [0]], [0, 0],
    fun _ => 1⟩

/-- Like `Mtest` but with window 10 and slice 4 (the spec's example). -/
def Mtrim10 : UniversalVocoder :=
  ⟨1, 10, 4, 1, 1, 1, 1, 1, 1, 2,
    fun _ _ => [0], fun _ _ => [0], fun _ _ => [0], fun _ _ => [0],
    fun _ _ => [0],
    [[0], [0]], [[0]], [0], [[0], [0]], [0, 0],
    fun _ => 1⟩

/-- The constant-zero random stream used by concrete runs. -/
def rng0 : ℕ → ℕ := fun _ => 0

/-! ### Basic shape lemmas -/

theorem quantDim_pos (m : UniversalVocoder) : 0 < m.quantDim :=
  Nat.pos_pow_of_pos m.bits (by norm_num)

theorem quantDim_ge_two (m : UniversalVocoder) (hb : 1 ≤ m.bits) : 2 ≤ m.quantDim := by
  calc 2 = 2 ^ 1 := rfl
  _ ≤ 2 ^ m.bits := Nat.pow_le_pow_right (by norm_num) hb

theorem rnnScan_length (cell : List ℚ → List ℚ → List ℚ) :
    ∀ (h : List ℚ) (xs : List (List ℚ)), (rnnScan cell h xs).length = xs.length := by
  intro h xs
  induction xs generalizing h with
  | nil => rfl
  | cons x xs ih => simp [rnnScan, ih]

theorem biLayer_length (cf cb : List ℚ → List ℚ → List ℚ) (h0 : List ℚ)
    (xs : List (List ℚ)) : (biLayer cf cb h0 xs).length = xs.length := by
  simp [biLayer, rnnScan_length]

theorem melRNN_ok_length (m : UniversalVocoder) {frames out : List (List ℚ)}
    (h : m.melRNN frames = .ok out) : out.length = frames.length := by
  rw [UniversalVocoder.melRNN] at h
  split at h
  · cases h; simp [biLayer_length]
  · cases h

theorem melRNN_ok_of_dims (m : UniversalVocoder) {frames : List (List ℚ)}
    (h : ∀ f ∈ frames, f.length = m.mel_dim) :
    ∃ out, m.melRNN frames = .ok out ∧ out.length = frames.length := by
  refine ⟨biLayer m.melCellF2 m.melCellB2 (List.replicate m.mel_rnn_dim 0)
    (biLayer m.melCellF1 m.melCellB1 (List.replicate m.mel_rnn_dim 0) frames), ?_, ?_⟩
  · rw [UniversalVocoder.melRNN, if_pos h]
  · simp [biLayer_length]

theorem melRNN_error_eq (m : UniversalVocoder) {frames : List (List ℚ)} {e : String}
    (h : m.melRNN frames = .error e) : e = melDimErr := by
  rw [UniversalVocoder.melRNN] at h
  split at h
  · cases h
  · cases h; rfl

theorem melRNN_ok_dims (m : UniversalVocoder) {frames out : List (List ℚ)}
    (h : m.melRNN frames = .ok out) : ∀ f ∈ frames, f.length = m.mel_dim := by
  rw [UniversalVocoder.melRNN] at h
  split at h
  · assumption
  · cases h

theorem embedLookup_ok (m : UniversalVocoder) (hP : m.ValidParams) {w : ℕ}
    (hw : w < m.quantDim) : ∃ row, m.embedLookup w = .ok row := by
  have hlt : w < m.embTable.length := by rw [hP.1]; exact hw
  rw [UniversalVocoder.embedLookup, List.getElem?_eq_getElem hlt]
  exact ⟨_, rfl⟩

theorem embedLookup_error_eq (m : UniversalVocoder) {w : ℕ} {e : String}
    (h : m.embedLookup w = .error e) : e = embErr := by
  rw [UniversalVocoder.embedLookup] at h
  split at h
  · cases h
  · cases h; rfl

theorem upsampleNearest_length (hop : ℕ) (xs : List (List ℚ)) :
    (upsampleNearest hop xs).length = xs.length * hop := by
  simp [upsampleNearest]

theorem upsampleNearest_getD (hop : ℕ) (xs : List (List ℚ)) (j : ℕ)
    (hj : j < xs.length * hop) :
    (upsampleNearest hop xs).getD j [] = xs.getD (j / hop) [] := by
  rw [upsampleNearest]
  rw [List.getD_eq_getElem _ _ (by simpa using hj)]
  simp

theorem linearMap_length (w : List (List ℚ)) (b x : List ℚ) :
    (linearMap w b x).length = min w.length b.length := by
  simp [linearMap]

theorem affineApply_length (m : UniversalVocoder) (hP : m.ValidParams) (x : List ℚ) :
    (m.affineApply x).length = m.quantDim := by
  simp [UniversalVocoder.affineApply, linearMap_length, hP.2.1, hP.2.2]

theorem softmax_length (m : UniversalVocoder) (v : List ℚ) :
    (m.softmax v).length = v.length := by
  simp [UniversalVocoder.softmax]

theorem multinomialRow_lt (p : List ℚ) (r : ℕ) (hp : 0 < p.length) :
    multinomialRow p r < p.length :=
  Nat.mod_lt _ hp

theorem trimCond_length (m : UniversalVocoder)
    (hs : m.frames_per_slice ≤ m.frames_per_sample) (xs : List (List ℚ))
    (hxs : xs.length = m.frames_per_sample) :
    (m.trimCond xs).length = m.frames_per_slice := by
  simp only [UniversalVocoder.trimCond, List.length_take, List.length_drop, hxs,
    UniversalVocoder.pad]
  omega

/-! ### `mapE` and `foldE` lemmas -/

theorem mapE_eq_ok_forall₂ {α β : Type} {f : α → Except String β} :
    ∀ {l : List α} {ys : List β}, mapE f l = .ok ys →
      List.Forall₂ (fun x y => f x = .ok y) l ys := by
  intro l
  induction l with
  | nil => intro ys h; rw [mapE] at h; cases h; exact List.Forall₂.nil
  | cons x xs ih =>
    intro ys h
    rw [mapE] at h
    rcases hfx : f x with e | y <;> rw [hfx] at h
    · cases h
    · rcases hm : mapE f xs with e | ys' <;> rw [hm] at h
      · cases h
      · cases h; exact List.Forall₂.cons hfx (ih hm)

theorem forall₂_ok_mapE {α β : Type} {f : α → Except String β} {P : α → β → Prop} :
    ∀ {l : List α}, (∀ x ∈ l, ∃ y, f x = .ok y ∧ P x y) →
      ∃ ys, mapE f l = .ok ys ∧ List.Forall₂ P l ys := by
  intro l
  induction l with
  | nil => intro _; exact ⟨[], rfl, List.Forall₂.nil⟩
  | cons x xs ih =>
    intro h
    obtain ⟨y, hy, hPy⟩ := h x (List.mem_cons_self x xs)
    obtain ⟨ys, hys, hPys⟩ := ih (fun a ha => h a (List.mem_cons_of_mem x ha))
    exact ⟨y :: ys, by rw [mapE, hy, hys], List.Forall₂.cons hPy hPys⟩

theorem mapE_eq_error {α β : Type} {f : α → Except String β} :
    ∀ {l : List α} {e : String}, mapE f l = .error e → ∃ x ∈ l, f x = .error e := by
  intro l
  induction l with
  | nil => intro e h; rw [mapE] at h; cases h
  | cons x xs ih =>
    intro e h
    rw [mapE] at h
    rcases hfx : f x with e' | y <;> rw [hfx] at h
    · cases h; exact ⟨x, List.mem_cons_self x xs, hfx⟩
    · rcases hm : mapE f xs with e' | ys' <;> rw [hm] at h
      · cases h
        obtain ⟨a, ha, hfa⟩ := ih hm
        exact ⟨a, List.mem_cons_of_mem x ha, hfa⟩
      · cases h

theorem mapE_replicate {α β : Type} {f : α → Except String β} {x : α} {y : β}
    (h : f x = .ok y) (n : ℕ) :
    mapE f (List.replicate n x) = .ok (List.replicate n y) := by
  induction n with
  | zero => rfl
  | succ k ih => rw [List.replicate_succ, List.replicate_succ, mapE, h, ih]

theorem forall₂_mem_right {α β : Type} {P : α → β → Prop} :
    ∀ {l : List α} {ys : List β}, List.Forall₂ P l ys → ∀ y ∈ ys, ∃ x ∈ l, P x y := by
  intro l ys h
  induction h with
  | nil => intro y hy; cases hy
  | cons hxy _ ih =>
    intro y hy
    rcases List.mem_cons.mp hy with rfl | hy'
    · exact ⟨_, List.mem_cons_self _ _, hxy⟩
    · obtain ⟨x, hx, hPx⟩ := ih y hy'
      exact ⟨x, List.mem_cons_of_mem _ hx, hPx⟩

/-! ### Generation-loop invariant -/

/-- Loop invariant for a single-element batch: a `(1, 1, wav_rnn_dim)`-shaped
hidden state (which satisfies the GRU's `(num_layers, batch, hidden)` check
exactly when the batch has one element), one previous category which is a
valid embedding index, and all stored scalars in `[-1,1]`. -/
def InvOne (m : UniversalVocoder) (s : GenState) : Prop :=
  s.hid.length = 1 ∧ (s.hid.headD []).length = 1 ∧ s.wav.length = 1 ∧
    (∀ w ∈ s.wav, w < m.quantDim) ∧ ∀ v ∈ s.outs, -1 ≤ v ∧ v ≤ 1

theorem rescale_bound (m : UniversalVocoder) (hb : 1 ≤ m.bits) (w : ℕ)
    (hw : w < m.quantDim) :
    -1 ≤ 2 * (w : ℚ) / ((m.quantDim : ℚ) - 1) - 1 ∧
      2 * (w : ℚ) / ((m.quantDim : ℚ) - 1) - 1 ≤ 1 := by
  have h2 : 2 ≤ m.quantDim := quantDim_ge_two m hb
  have hq : (2 : ℚ) ≤ (m.quantDim : ℚ) := by exact_mod_cast h2
  have hpos : (0 : ℚ) < (m.quantDim : ℚ) - 1 := by linarith
  have hwle : (w : ℚ) ≤ (m.quantDim : ℚ) - 1 := by
    have : ((w + 1 : ℕ) : ℚ) ≤ ((m.quantDim : ℕ) : ℚ) := by
      exact_mod_cast Nat.succ_le_of_lt hw
    push_cast at this
    linarith
  constructor
  · have h0 : 0 ≤ 2 * (w : ℚ) / ((m.quantDim : ℚ) - 1) :=
      div_nonneg (by positivity) hpos.le
    linarith
  · have hle : 2 * (w : ℚ) / ((m.quantDim : ℚ) - 1) ≤ 2 := by
      rw [div_le_iff₀ hpos]; linarith
    linarith

theorem genStep_ok_one (m : UniversalVocoder) (hP : m.ValidParams) (hb : 1 ≤ m.bits)
    (conds : List (List (List ℚ))) (hcl : conds.length = 1) (rng : ℕ → ℕ) (t : ℕ)
    (s : GenState) (hInv : InvOne m s) :
    ∃ s', m.genStep conds rng s t = .ok s' ∧ InvOne m s' ∧
      s'.outs.length = s.outs.length + 1 := by
  obtain ⟨hh, hhrow, hw, hwlt, houts⟩ := hInv
  obtain ⟨w, hw1⟩ := List.length_eq_one.mp hw
  obtain ⟨hrow0, hh1⟩ := List.length_eq_one.mp hh
  have hhrow' : hrow0.length = 1 := by rw [hh1] at hhrow; simpa using hhrow
  obtain ⟨h, hrow1⟩ := List.length_eq_one.mp hhrow'
  obtain ⟨c, hc1⟩ := List.length_eq_one.mp hcl
  have hwQ : w < m.quantDim := hwlt w (by rw [hw1]; exact List.mem_singleton_self w)
  obtain ⟨row, hrowE⟩ := embedLookup_ok m hP hwQ
  have hplen : ∀ x : List ℚ, (m.softmax (m.affineApply x)).length = m.quantDim := by
    intro x; rw [softmax_length, affineApply_length m hP]
  simp only [UniversalVocoder.genStep, hw1, hh1, hrow1, hc1, mapE, hrowE,
    List.map_cons, List.map_nil, List.zipWith_cons_cons, List.zipWith_nil_right,
    List.length_cons, List.length_nil, List.headD_cons, List.range_succ,
    List.range_zero, List.nil_append, List.getD_cons_zero, item, and_self,
    if_true, ite_true, if_pos]
  refine ⟨_, rfl, ⟨?_, ?_, ?_, ?_, ?_⟩, ?_⟩
  · rfl
  · rfl
  · rfl
  · intro w' hw'
    rcases List.mem_singleton.mp hw' with rfl
    have := multinomialRow_lt (m.softmax (m.affineApply
      (m.wavCell (row ++ c.getD t []) h))) (rng (t * 1 + 0)) (by rw [hplen]; exact quantDim_pos m)
    rwa [hplen] at this
  · intro v hv
    rcases List.mem_append.mp hv with hv' | hv'
    · exact houts v hv'
    · rcases List.mem_singleton.mp hv' with rfl
      exact rescale_bound m hb _ (by
        have := multinomialRow_lt (m.softmax (m.affineApply
          (m.wavCell (row ++ c.getD t []) h))) (rng (t * 1 + 0))
          (by rw [hplen]; exact quantDim_pos m)
        rwa [hplen] at this)
  · simp

theorem foldE_ok_one (m : UniversalVocoder) (hP : m.ValidParams) (hb : 1 ≤ m.bits)
    (conds : List (List (List ℚ))) (hcl : conds.length = 1) (rng : ℕ → ℕ) :
    ∀ (l : List ℕ) (s : GenState), InvOne m s →
      ∃ s', foldE (m.genStep conds rng) s l = .ok s' ∧ InvOne m s' ∧
        s'.outs.length = s.outs.length + l.length := by
  intro l
  induction l with
  | nil => intro s hs; exact ⟨s, rfl, hs, by simp⟩
  | cons t ts ih =>
    intro s hs
    obtain ⟨s1, h1, hInv1, hlen1⟩ := genStep_ok_one m hP hb conds hcl rng t s hs
    obtain ⟨s2, h2, hInv2, hlen2⟩ := ih s1 hInv1
    refine ⟨s2, ?_, hInv2, ?_⟩
    · simp only [foldE, h1, h2]
    · rw [hlen2, hlen1, List.length_cons]; omega

/-- For a single-spectrogram batch with well-formed frames, the whole
generation loop succeeds, produces `frames * hop_length` stored scalars, and
every stored scalar lies in `[-1, 1]`. -/
theorem generateCompanded_singleton (m : UniversalVocoder) (hC : m.ValidConfig)
    (hP : m.ValidParams) (rng : ℕ → ℕ) (mel : List (List ℚ))
    (hdim : ∀ f ∈ mel, f.length = m.mel_dim) :
    ∃ outs, m.generateCompanded rng [mel] = .ok [outs] ∧
      outs.length = mel.length * m.hop_length ∧ ∀ v ∈ outs, -1 ≤ v ∧ v ≤ 1 := by
  obtain ⟨hb, _hs, _hh⟩ := hC
  obtain ⟨emb, hemb, hembLen⟩ := melRNN_ok_of_dims m hdim
  have hInv0 : InvOne m ⟨[[List.replicate m.wav_rnn_dim 0]], [m.quantDim / 2], []⟩ := by
    refine ⟨rfl, rfl, rfl, ?_, by simp⟩
    intro w hw
    rcases List.mem_singleton.mp hw with rfl
    exact Nat.div_lt_self (quantDim_pos m) one_lt_two
  obtain ⟨sF, hfold, hInvF, hlenF⟩ := foldE_ok_one m hP hb
    [upsampleNearest m.hop_length emb] rfl rng
    (List.range (upsampleNearest m.hop_length emb).length)
    ⟨[[List.replicate m.wav_rnn_dim 0]], [m.quantDim / 2], []⟩ hInv0
  refine ⟨sF.outs, ?_, ?_, hInvF.2.2.2.2⟩
  · simp only [UniversalVocoder.generateCompanded, mapE, hemb, List.map_cons,
      List.map_nil, List.headD_cons, List.length_cons, List.length_nil,
      List.replicate_one, List.replicate_succ, List.replicate_zero]
    rw [hfold]
  · rw [hlenF, upsampleNearest_length, hembLen]; simp

/-! ### Failure of generation on batches of two or more -/

theorem genStep_gruHid_error (m : UniversalVocoder) (hP : m.ValidParams)
    (conds : List (List (List ℚ))) (rng : ℕ → ℕ) (t : ℕ) (s : GenState)
    (hhl : s.hid.length = s.wav.length)
    (hwlt : ∀ w ∈ s.wav, w < m.quantDim) (hB : 2 ≤ s.wav.length) :
    m.genStep conds rng s t = .error gruHidErr := by
  obtain ⟨wavEmb, hmap, hF2⟩ := forall₂_ok_mapE
    (f := m.embedLookup) (P := fun _ _ => True)
    (l := s.wav) (fun w hw => by
      obtain ⟨row, hrow⟩ := embedLookup_ok m hP (hwlt w hw)
      exact ⟨row, hrow, trivial⟩)
  simp only [UniversalVocoder.genStep, hmap]
  rw [if_neg]
  rintro ⟨h1, _h2⟩
  omega

theorem generateCompanded_batch_error (m : UniversalVocoder) (hC : m.ValidConfig)
    (hP : m.ValidParams) (rng : ℕ → ℕ) (mels : List (List (List ℚ)))
    (hB : 2 ≤ mels.length)
    (hdim : ∀ mel ∈ mels, ∀ f ∈ mel, f.length = m.mel_dim)
    (hne : ∀ mel ∈ mels, 1 ≤ mel.length) :
    m.generateCompanded rng mels = .error gruHidErr := by
  obtain ⟨_hb, _hs, hhop⟩ := hC
  obtain ⟨melEmbs, hmap, hF2⟩ := forall₂_ok_mapE
    (f := m.melRNN) (P := fun mel emb => emb.length = mel.length)
    (l := mels) (fun mel hmel => by
      obtain ⟨emb, hemb, hlen⟩ := melRNN_ok_of_dims m (hdim mel hmel)
      exact ⟨emb, hemb, hlen⟩)
  have hmlen : melEmbs.length = mels.length := (List.Forall₂.length_eq hF2).symm
  set conds := melEmbs.map (fun row => upsampleNearest m.hop_length row) with hconds
  have hcl : conds.length = mels.length := by simp [hconds, hmlen]
  -- the first condition row is nonempty, so the loop runs at least one step
  have hT : 1 ≤ (conds.headD []).length := by
    rcases mels with _ | ⟨mel0, rest⟩
    · simp at hB
    · rcases melEmbs with _ | ⟨emb0, rest'⟩
      · simp at hmlen
      · have h0 : emb0.length = mel0.length := by
          cases hF2 with
          | cons h _ => exact h
        simp only [hconds, List.map_cons, List.headD_cons, upsampleNearest_length, h0]
        have := hne mel0 (List.mem_cons_self _ _)
        exact Nat.one_le_iff_ne_zero.mpr (by positivity)
  obtain ⟨T', hT'⟩ := Nat.exists_eq_add_of_le hT
  have hs0 : m.genStep conds rng
      ⟨List.replicate mels.length [List.replicate m.wav_rnn_dim 0],
        List.replicate mels.length (m.quantDim / 2), []⟩ 0 = .error gruHidErr := by
    apply genStep_gruHid_error m hP conds rng 0 _ (by simp)
    · intro w hw
      rcases List.eq_of_mem_replicate hw with rfl
      exact Nat.div_lt_self (quantDim_pos m) one_lt_two
    · simpa using hB
  have hT2 : (conds.headD []).length = T' + 1 := by omega
  simp only [UniversalVocoder.generateCompanded, hmap]
  rw [← hconds, hT2, List.range_succ_eq_map, foldE, hs0]

/-! ### Real-valued mu-law lemmas -/

theorem muExpand_bounds (μ x : ℝ) (hμ : 1 ≤ μ) (hx : |x| ≤ 1) :
    -1 ≤ muExpand μ x ∧ muExpand μ x ≤ 1 := by
  have hμ0 : (0:ℝ) < μ := lt_of_lt_of_le one_pos hμ
  have hb : (1:ℝ) ≤ 1 + μ := by linarith
  have h1 : (1:ℝ) ≤ (1 + μ) ^ |x| := by
    have h := Real.rpow_le_rpow_of_exponent_le hb (abs_nonneg x)
    rwa [Real.rpow_zero] at h
  have h2 : (1 + μ) ^ |x| ≤ 1 + μ := by
    have h := Real.rpow_le_rpow_of_exponent_le hb hx
    rwa [Real.rpow_one] at h
  have hs : -1 ≤ Real.sign x ∧ Real.sign x ≤ 1 := by
    rcases lt_trichotomy x 0 with h | h | h
    · rw [Real.sign_of_neg h]; norm_num
    · rw [h, Real.sign_zero]; norm_num
    · rw [Real.sign_of_pos h]; norm_num
  have hform : muExpand μ x = Real.sign x * (((1 + μ) ^ |x| - 1) / μ) := by
    rw [muExpand]; ring
  have ht0 : 0 ≤ ((1 + μ) ^ |x| - 1) / μ := div_nonneg (by linarith) hμ0.le
  have ht1 : ((1 + μ) ^ |x| - 1) / μ ≤ 1 := by
    rw [div_le_one hμ0]; linarith
  rw [hform]
  constructor <;> nlinarith [hs.1, hs.2, ht0, ht1]

theorem muCompand_muExpand (μ x : ℝ) (hμ : 1 ≤ μ) :
    muCompand μ (muExpand μ x) = x := by
  have hμ0 : (0:ℝ) < μ := lt_of_lt_of_le one_pos hμ
  have hb0 : (0:ℝ) < 1 + μ := by linarith
  have hb1 : (1:ℝ) < 1 + μ := by linarith
  have hlog : Real.log (1 + μ) ≠ 0 := ne_of_gt (Real.log_pos hb1)
  rcases lt_trichotomy x 0 with hx | hx | hx
  · have habs : |x| = -x := abs_of_neg hx
    have h1lt : 1 < (1 + μ) ^ |x| := by
      rw [Real.one_lt_rpow_iff_of_pos hb0]
      exact Or.inl ⟨hb1, abs_pos.mpr (ne_of_lt hx)⟩
    have hD : muExpand μ x = -(((1 + μ) ^ |x| - 1) / μ) := by
      rw [muExpand, Real.sign_of_neg hx]; ring
    have htpos : 0 < ((1 + μ) ^ |x| - 1) / μ := div_pos (by linarith) hμ0
    have hDneg : muExpand μ x < 0 := by rw [hD]; linarith
    rw [muCompand, Real.sign_of_neg hDneg, abs_of_neg hDneg, hD, neg_neg]
    have harg : 1 + μ * (((1 + μ) ^ |x| - 1) / μ) = (1 + μ) ^ |x| := by
      field_simp
    rw [harg, Real.log_rpow hb0, habs]
    field_simp
  · rw [hx, muExpand, Real.sign_zero, muCompand]
    simp [Real.sign_zero]
  · have habs : |x| = x := abs_of_pos hx
    have h1lt : 1 < (1 + μ) ^ |x| := by
      rw [Real.one_lt_rpow_iff_of_pos hb0]
      exact Or.inl ⟨hb1, abs_pos.mpr (ne_of_gt hx)⟩
    have hD : muExpand μ x = ((1 + μ) ^ |x| - 1) / μ := by
      rw [muExpand, Real.sign_of_pos hx]; ring
    have hDpos : 0 < muExpand μ x := by
      rw [hD]; exact div_pos (by linarith) hμ0
    rw [muCompand, Real.sign_of_pos hDpos, abs_of_pos hDpos, hD]
    have harg : 1 + μ * (((1 + μ) ^ |x| - 1) / μ) = (1 + μ) ^ |x| := by
      field_simp
    rw [harg, Real.log_rpow hb0, habs]
    field_simp

/-! ### Forward-pass shape lemmas -/

theorem forall₂_getElem {α β : Type} {P : α → β → Prop} {l : List α} {ys : List β}
    (h : List.Forall₂ P l ys) (i : ℕ) (h1 : i < l.length) (h2 : i < ys.length) :
    P l[i] ys[i] := by
  rw [List.forall₂_iff_get] at h
  simpa using h.2 i h1 h2

theorem mem_zipWith_getElem {α β γ : Type} {f : α → β → γ} {l₁ : List α}
    {l₂ : List β} {c : γ} (h : c ∈ List.zipWith f l₁ l₂) :
    ∃ i, ∃ h₁ : i < l₁.length, ∃ h₂ : i < l₂.length, c = f l₁[i] l₂[i] := by
  obtain ⟨i, hi, hc⟩ := List.mem_iff_getElem.mp h
  have hlen := hi
  rw [List.length_zipWith] at hlen
  rw [List.getElem_zipWith] at hc
  exact ⟨i, by omega, by omega, hc.symm⟩

/-- C2: the training forward pass on a conforming batch — every
mel-spectrogram has `frames_per_sample` frames of width `mel_dim`, every
quantized waveform has `frames_per_slice * hop_length` in-range samples —
succeeds with one output row per batch element whose time length is exactly
`frames_per_slice * hop_length`, carrying one unnormalized score per
`2^bits` quantization category at every step. -/
theorem forward_ok_shape (m : UniversalVocoder) (hC : m.ValidConfig)
    (hP : m.ValidParams) (wavs : List (List ℕ)) (mels : List (List (List ℚ)))
    (hBatch : wavs.length = mels.length)
    (hmels : ∀ mel ∈ mels, mel.length = m.frames_per_sample ∧
      ∀ f ∈ mel, f.length = m.mel_dim)
    (hwavs : ∀ seq ∈ wavs, seq.length = m.frames_per_slice * m.hop_length ∧
      ∀ w ∈ seq, w < m.quantDim) :
    ∃ outs, m.forward wavs mels = .ok outs ∧ outs.length = mels.length ∧
      ∀ row ∈ outs, row.length = m.frames_per_slice * m.hop_length ∧
        ∀ score ∈ row, score.length = m.quantDim := by
  obtain ⟨melEmbs, hmap1, hF1⟩ := forall₂_ok_mapE
    (f := m.melRNN) (P := fun _ emb => emb.length = m.frames_per_sample)
    (l := mels) (fun mel hmel => by
      obtain ⟨emb, hemb, hlen⟩ := melRNN_ok_of_dims m (hmels mel hmel).2
      exact ⟨emb, hemb, show emb.length = m.frames_per_sample by
        rw [hlen, (hmels mel hmel).1]⟩)
  obtain ⟨wavEmbs, hmap2, hF2⟩ := forall₂_ok_mapE
    (f := fun seq => mapE m.embedLookup seq)
    (P := fun _ embRow => embRow.length = m.frames_per_slice * m.hop_length)
    (l := wavs) (fun seq hseq => by
      obtain ⟨ys, hys, hFin⟩ := forall₂_ok_mapE
        (f := m.embedLookup) (P := fun _ _ => True) (l := seq) (fun w hw => by
          obtain ⟨row, hrow⟩ := embedLookup_ok m hP ((hwavs seq hseq).2 w hw)
          exact ⟨row, hrow, trivial⟩)
      exact ⟨ys, hys, show ys.length = m.frames_per_slice * m.hop_length by
        rw [← List.Forall₂.length_eq hFin]; exact (hwavs seq hseq).1⟩)
  have hl1 : melEmbs.length = mels.length := (List.Forall₂.length_eq hF1).symm
  have hl2 : wavEmbs.length = wavs.length := (List.Forall₂.length_eq hF2).symm
  have hcondLen : ∀ (i : ℕ) (h : i < melEmbs.length),
      (upsampleNearest m.hop_length (m.trimCond melEmbs[i])).length =
        m.frames_per_slice * m.hop_length := by
    intro i hIdx
    rw [upsampleNearest_length, trimCond_length m hC.2.1 _
      (forall₂_getElem hF1 i (by omega) hIdx)]
  have hg1 : wavEmbs.length =
      (melEmbs.map (fun row => upsampleNearest m.hop_length (m.trimCond row))).length := by
    simp [hl2, hBatch, hl1]
  have hg2 : ∀ p ∈ wavEmbs.zip
      (melEmbs.map (fun row => upsampleNearest m.hop_length (m.trimCond row))),
      p.1.length = p.2.length := by
    intro p hp
    obtain ⟨i, hi, hpe⟩ := List.mem_iff_getElem.mp hp
    have hlen := hi
    rw [List.length_zip] at hlen
    rw [List.getElem_zip] at hpe
    subst hpe
    have hiw : i < wavEmbs.length := by omega
    have him : i < melEmbs.length := by
      rw [List.length_map] at hlen; omega
    rw [forall₂_getElem hF2 i (by omega) hiw]
    rw [List.getElem_map]
    exact (hcondLen i him).symm
  simp only [UniversalVocoder.forward, hmap1, hmap2]
  rw [if_pos ⟨hg1, hg2⟩]
  refine ⟨_, rfl, ?_, ?_⟩
  · simp [List.length_zipWith, hl2, hBatch, hl1]
  · intro row hrow
    obtain ⟨r1, hr1, hrw⟩ := List.mem_map.mp hrow
    obtain ⟨r0, hr0, hrw1⟩ := List.mem_map.mp hr1
    obtain ⟨i, hiw, him0, hre⟩ := mem_zipWith_getElem hr0
    constructor
    · have him : i < melEmbs.length := by
        rw [List.length_map] at him0; omega
      rw [← hrw, ← hrw1, List.length_map, hre, rnnScan_length, List.length_zipWith,
        forall₂_getElem hF2 i (by omega) hiw, List.getElem_map, hcondLen i him,
        min_self]
    · intro score hscore
      rw [← hrw] at hscore
      obtain ⟨x, _hx, hxe⟩ := List.mem_map.mp hscore
      rw [← hxe, affineApply_length m hP]

/-! ### Fail-fast error lemmas -/

theorem forall₂_mem_left {α β : Type} {P : α → β → Prop} :
    ∀ {l : List α} {ys : List β}, List.Forall₂ P l ys → ∀ x ∈ l, ∃ y ∈ ys, P x y := by
  intro l ys h
  induction h with
  | nil => intro x hx; cases hx
  | cons hxy _ ih =>
    intro x hx
    rcases List.mem_cons.mp hx with rfl | hx'
    · exact ⟨_, List.mem_cons_self _ _, hxy⟩
    · obtain ⟨y, hy, hPy⟩ := ih x hx'
      exact ⟨y, List.mem_cons_of_mem _ hy, hPy⟩

theorem forward_melDim_error (m : UniversalVocoder) (wavs : List (List ℕ))
    (mels : List (List (List ℚ)))
    (hbad : ∃ mel ∈ mels, ∃ f ∈ mel, f.length ≠ m.mel_dim) :
    m.forward wavs mels = .error melDimErr := by
  rcases hmap : mapE m.melRNN mels with e | melEmbs
  · obtain ⟨x, _hx, hfx⟩ := mapE_eq_error hmap
    have he : e = melDimErr := melRNN_error_eq m hfx
    subst he
    simp only [UniversalVocoder.forward, hmap]
  · exfalso
    obtain ⟨mel, hmel, f, hf, hne⟩ := hbad
    obtain ⟨emb, _hemb, hok⟩ := forall₂_mem_left (mapE_eq_ok_forall₂ hmap) mel hmel
    exact hne (melRNN_ok_dims m hok f hf)

theorem generateCompanded_melDim_error (m : UniversalVocoder) (rng : ℕ → ℕ)
    (mels : List (List (List ℚ)))
    (hbad : ∃ mel ∈ mels, ∃ f ∈ mel, f.length ≠ m.mel_dim) :
    m.generateCompanded rng mels = .error melDimErr := by
  rcases hmap : mapE m.melRNN mels with e | melEmbs
  · obtain ⟨x, _hx, hfx⟩ := mapE_eq_error hmap
    have he : e = melDimErr := melRNN_error_eq m hfx
    subst he
    simp only [UniversalVocoder.generateCompanded, hmap]
  · exfalso
    obtain ⟨mel, hmel, f, hf, hne⟩ := hbad
    obtain ⟨emb, _hemb, hok⟩ := forall₂_mem_left (mapE_eq_ok_forall₂ hmap) mel hmel
    exact hne (melRNN_ok_dims m hok f hf)

theorem generate_melDim_error (m : UniversalVocoder) (rng : ℕ → ℕ)
    (mels : List (List (List ℚ)))
    (hbad : ∃ mel ∈ mels, ∃ f ∈ mel, f.length ≠ m.mel_dim) :
    m.generate rng mels = .error melDimErr := by
  rw [UniversalVocoder.generate, generateCompanded_melDim_error m rng mels hbad]
  rfl

theorem forward_catDim_error (m : UniversalVocoder) (hC : m.ValidConfig)
    (hP : m.ValidParams) (wavs : List (List ℕ)) (mels : List (List (List ℚ)))
    (hBatch : wavs.length = mels.length)
    (hmels : ∀ mel ∈ mels, mel.length = m.frames_per_sample ∧
      ∀ f ∈ mel, f.length = m.mel_dim)
    (hwvals : ∀ seq ∈ wavs, ∀ w ∈ seq, w < m.quantDim)
    (hbad : ∃ seq ∈ wavs, seq.length ≠ m.frames_per_slice * m.hop_length) :
    m.forward wavs mels = .error catDimErr := by
  obtain ⟨melEmbs, hmap1, hF1⟩ := forall₂_ok_mapE
    (f := m.melRNN) (P := fun _ emb => emb.length = m.frames_per_sample)
    (l := mels) (fun mel hmel => by
      obtain ⟨emb, hemb, hlen⟩ := melRNN_ok_of_dims m (hmels mel hmel).2
      exact ⟨emb, hemb, show emb.length = m.frames_per_sample by
        rw [hlen, (hmels mel hmel).1]⟩)
  obtain ⟨wavEmbs, hmap2, hF2⟩ := forall₂_ok_mapE
    (f := fun seq => mapE m.embedLookup seq)
    (P := fun seq embRow => embRow.length = seq.length)
    (l := wavs) (fun seq hseq => by
      obtain ⟨ys, hys, hFin⟩ := forall₂_ok_mapE
        (f := m.embedLookup) (P := fun _ _ => True) (l := seq) (fun w hw => by
          obtain ⟨row, hrow⟩ := embedLookup_ok m hP (hwvals seq hseq w hw)
          exact ⟨row, hrow, trivial⟩)
      exact ⟨ys, hys, show ys.length = seq.length from
        (List.Forall₂.length_eq hFin).symm⟩)
  have hl1 : melEmbs.length = mels.length := (List.Forall₂.length_eq hF1).symm
  have hl2 : wavEmbs.length = wavs.length := (List.Forall₂.length_eq hF2).symm
  obtain ⟨seq, hseq, hne⟩ := hbad
  obtain ⟨i, hiw, hie⟩ := List.mem_iff_getElem.mp hseq
  have him : i < melEmbs.length := by omega
  have hiwE : i < wavEmbs.length := by omega
  have hcond : ¬(wavEmbs.length =
      (melEmbs.map (fun row => upsampleNearest m.hop_length (m.trimCond row))).length ∧
      ∀ p ∈ wavEmbs.zip
        (melEmbs.map (fun row => upsampleNearest m.hop_length (m.trimCond row))),
        p.1.length = p.2.length) := by
    rintro ⟨_h1, h2⟩
    apply hne
    have hizip : i < (wavEmbs.zip
        (melEmbs.map (fun row => upsampleNearest m.hop_length (m.trimCond row)))).length := by
      rw [List.length_zip]
      simp only [List.length_map]
      omega
    have hmem := List.getElem_mem hizip
    have := h2 _ hmem
    rw [List.getElem_zip] at this
    simp only [List.getElem_map] at this
    rw [forall₂_getElem hF2 i (by omega) hiwE, hie] at this
    rw [this, upsampleNearest_length, trimCond_length m hC.2.1 _
      (forall₂_getElem hF1 i (by omega) him)]
  simp only [UniversalVocoder.forward, hmap1, hmap2]
  rw [if_neg hcond]

/-! ### Claim theorems -/

/-- C1: for every valid configuration and parameter set, `generate` applied to
a (single-spectrogram) batch whose mel-spectrogram has `F` well-formed frames
succeeds and returns a waveform of exactly `F * hop_length` real values, each
in `[-1, 1]`.  The witness instantiates `F = 1`: a 1-frame mel-spectrogram
still produces `hop_length` output samples. -/
theorem generate_waveform_length_range (m : UniversalVocoder) (hC : m.ValidConfig)
    (hP : m.ValidParams) (rng : ℕ → ℕ) (mel : List (List ℚ))
    (hdim : ∀ f ∈ mel, f.length = m.mel_dim) :
    ∃ ws : List ℝ, m.generate rng [mel] = .ok [ws] ∧
      ws.length = mel.length * m.hop_length ∧ ∀ v ∈ ws, -1 ≤ v ∧ v ≤ 1 := by
  obtain ⟨outs, hok, hlen, hbnd⟩ := generateCompanded_singleton m hC hP rng mel hdim
  have hμ : (1:ℝ) ≤ (m.quantDim : ℝ) - 1 := by
    have h2 : (2:ℝ) ≤ (m.quantDim : ℝ) := by exact_mod_cast quantDim_ge_two m hC.1
    linarith
  refine ⟨outs.map (fun q : ℚ => muExpand ((m.quantDim : ℝ) - 1) (q : ℝ)), ?_, ?_, ?_⟩
  · rw [UniversalVocoder.generate, hok]; rfl
  · rw [List.length_map, hlen]
  · intro v hv
    obtain ⟨q, hq, rfl⟩ := List.mem_map.mp hv
    have hqb := hbnd q hq
    have habs : |(q : ℝ)| ≤ 1 := by
      rw [abs_le]
      constructor
      · exact_mod_cast hqb.1
      · exact_mod_cast hqb.2
    exact muExpand_bounds _ _ hμ habs

/-- Witness for C1: the concrete miniature model on a 1-frame mel-spectrogram
still yields `hop_length = 2` samples, all in `[-1, 1]`. -/
theorem generate_waveform_length_range_witness :
    ∃ ws : List ℝ, Mtest.generate rng0 [[[0]]] = .ok [ws] ∧
      ws.length = 2 ∧ ∀ v ∈ ws, -1 ≤ v ∧ v ≤ 1 :=
  generate_waveform_length_range Mtest ⟨by decide, by decide, by decide⟩
    ⟨by decide, by decide, by decide⟩ rng0 [[0]] (by decide)

/-- Witness for C2: a conforming batch (window 2, slice 2, hop 2, 4 waveform
samples) yields scores of time length `frames_per_slice * hop_length = 4`. -/
theorem forward_ok_shape_witness :
    ∃ outs, Mtest.forward [[1, 1, 1, 1]] [[[0], [0]]] = .ok outs ∧
      outs.length = 1 ∧ ∀ row ∈ outs, row.length = 4 ∧
        ∀ score ∈ row, score.length = 2 :=
  forward_ok_shape Mtest ⟨by decide, by decide, by decide⟩
    ⟨by decide, by decide, by decide⟩ [[1, 1, 1, 1]] [[[0], [0]]]
    (by decide) (by decide) (by decide)

/-- C3 counterexample: the source's upsampler (`F.interpolate` with its
default `mode='nearest'`) is not linear interpolation: on the two frames
`[0], [1]` with hop 2 it yields `[0], [0], [1], [1]` while the spec's linear
interpolation yields `[0], [1/4], [3/4], [1]`. -/
theorem upsampleNearest_ne_linear :
    upsampleNearest 2 [[0], [1]] ≠ upsampleLinearSpec 2 [[0], [1]] := by
  norm_num [upsampleNearest, upsampleLinearSpec, List.range_succ]

/-- C3 amended: the Temporal Upsampler stretches the sequence by the exact
integer factor `hop` using nearest-neighbour interpolation — output step `j`
is a copy of source frame `j / hop` (each frame repeated `hop` times) — and
produces exactly `frames * hop` output steps.  It is a fixed function of its
input with no learned parameters. -/
theorem upsampleNearest_stretch (hop : ℕ) (xs : List (List ℚ)) :
    (upsampleNearest hop xs).length = xs.length * hop ∧
      ∀ j, j < xs.length * hop →
        (upsampleNearest hop xs).getD j [] = xs.getD (j / hop) [] :=
  ⟨upsampleNearest_length hop xs, fun j hj => upsampleNearest_getD hop xs j hj⟩

/-- Witness for the amended C3 at hop 2 on two frames. -/
theorem upsampleNearest_stretch_witness :
    (upsampleNearest 2 [[0], [1]]).length = 4 ∧
      (upsampleNearest 2 [[0], [1]]).getD 3 [] = [1] :=
  ⟨(upsampleNearest_stretch 2 [[0], [1]]).1,
    (upsampleNearest_stretch 2 [[0], [1]]).2 3 (by decide)⟩

/-- C4 counterexample: with window 5 and slice 2 the source's trim is not
`(W - S) / 2 = 1` frames from each end: the code keeps frames 1 and 2
(trimming 1 from the left but 2 from the right), while trimming 1 from each
end of 5 frames would keep frames 1, 2 and 3. -/
theorem trimCond_ne_each_end :
    Mtrim5.trimCond [[0], [1], [2], [3], [4]] ≠
      trimEachEnd ((Mtrim5.frames_per_sample - Mtrim5.frames_per_slice) / 2)
        [[0], [1], [2], [3], [4]] := by
  norm_num [UniversalVocoder.trimCond, trimEachEnd, UniversalVocoder.pad, Mtrim5]

/-- C4 amended: in training mode the conditioning sequence of `W` frames is
trimmed to the slice starting at offset `pad = (W - S) / 2` (floor division)
and of length exactly `S`; when `W - S` is even this trims exactly
`(W - S) / 2` frames from each end (for odd `W - S` the right end loses one
more frame than the left, see the counterexample).  For `W = 10`, `S = 4` the
offset is exactly 3.  In generation mode no trimming occurs: the generated
output covers the full `F * hop_length` steps of the input spectrogram. -/
theorem trim_alignment :
    (∀ (m : UniversalVocoder) (xs : List (List ℚ)),
      m.frames_per_slice ≤ m.frames_per_sample →
      xs.length = m.frames_per_sample →
      m.pad = (m.frames_per_sample - m.frames_per_slice) / 2 ∧
      (m.trimCond xs).length = m.frames_per_slice ∧
      (Even (m.frames_per_sample - m.frames_per_slice) →
        m.trimCond xs = trimEachEnd m.pad xs)) ∧
    (∀ m : UniversalVocoder, m.frames_per_sample = 10 → m.frames_per_slice = 4 →
      m.pad = 3) ∧
    (∀ m : UniversalVocoder, m.ValidConfig → m.ValidParams →
      ∀ (rng : ℕ → ℕ) (mel : List (List ℚ)), (∀ f ∈ mel, f.length = m.mel_dim) →
      ∃ outs, m.generateCompanded rng [mel] = .ok [outs] ∧
        outs.length = mel.length * m.hop_length) := by
  refine ⟨?_, ?_, ?_⟩
  · intro m xs hs hxs
    refine ⟨rfl, trimCond_length m hs xs hxs, ?_⟩
    intro heven
    obtain ⟨k, hk⟩ := heven
    rw [UniversalVocoder.trimCond, trimEachEnd]
    congr 1
    rw [hxs, UniversalVocoder.pad, hk]
    omega
  · intro m h10 h4
    rw [UniversalVocoder.pad, h10, h4]
  · intro m hC hP rng mel hdim
    obtain ⟨outs, hok, hlen, -⟩ := generateCompanded_singleton m hC hP rng mel hdim
    exact ⟨outs, hok, hlen⟩

/-- Witness for the amended C4: the 10/4 instance has offset 3 and keeps
exactly 4 of 10 frames; generation on the same model is untrimmed. -/
theorem trim_alignment_witness :
    Mtrim10.pad = 3 ∧
      (Mtrim10.trimCond [[0], [1], [2], [3], [4], [5], [6], [7], [8], [9]]).length = 4 ∧
      ∃ outs, Mtrim10.generateCompanded rng0 [[[0]]] = .ok [outs] ∧
        outs.length = 2 := by
  refine ⟨trim_alignment.2.1 Mtrim10 (by decide) (by decide), ?_, ?_⟩
  · exact (trim_alignment.1 Mtrim10 _ (by decide) (by decide)).2.1
  · exact trim_alignment.2.2 Mtrim10 ⟨by decide, by decide, by decide⟩
      ⟨by decide, by decide, by decide⟩ rng0 [[0]] (by decide)

/-- C5: the decompanding applied in `generate` (with `mu = quant_dim - 1` and
`x` the sampled category rescaled to `[-1, 1]` as on source line 82) is the
exact algebraic inverse of forward mu-law companding: applying the forward
law to the decompanded value recovers the rescaled category exactly — in
particular within quantization error — for every bit depth `>= 1` and every
valid category. -/
theorem mu_law_inverse_on_categories (m : UniversalVocoder) (hb : 1 ≤ m.bits)
    (c : ℕ) (_hc : c < m.quantDim) :
    muCompand ((m.quantDim : ℝ) - 1)
      (muExpand ((m.quantDim : ℝ) - 1)
        (2 * (c : ℝ) / ((m.quantDim : ℝ) - 1) - 1)) =
      2 * (c : ℝ) / ((m.quantDim : ℝ) - 1) - 1 := by
  have h2 : (2:ℝ) ≤ (m.quantDim : ℝ) := by exact_mod_cast quantDim_ge_two m hb
  exact muCompand_muExpand _ _ (by linarith)

/-- Witness for C5 at one bit and category 1. -/
theorem mu_law_inverse_on_categories_witness :
    muCompand ((Mtest.quantDim : ℝ) - 1)
      (muExpand ((Mtest.quantDim : ℝ) - 1)
        (2 * ((1 : ℕ) : ℝ) / ((Mtest.quantDim : ℝ) - 1) - 1)) =
      2 * ((1 : ℕ) : ℝ) / ((Mtest.quantDim : ℝ) - 1) - 1 :=
  mu_law_inverse_on_categories Mtest (by decide) 1 (by decide)

/-- C6 counterexample: on a batch of two 1-frame mel-spectrograms the
generation loop does not store one batch element's value per step — it fails
at the first step, inside the `wav_rnn` call, because the hidden state was
allocated as `(batch, 1, wav_rnn_dim)` on line 66 while `nn.GRU` requires
`(1, batch, wav_rnn_dim)`; the `.item()` conversion on line 82 is never even
reached, and no output is produced at all. -/
theorem generate_batch_two_gru_error :
    Mtest.generateCompanded rng0 [[[0]], [[0]]] = .error gruHidErr := by
  norm_num [UniversalVocoder.generateCompanded, UniversalVocoder.genStep,
    UniversalVocoder.melRNN, UniversalVocoder.embedLookup, UniversalVocoder.softmax,
    UniversalVocoder.affineApply, UniversalVocoder.quantDim, Mtest, mapE, foldE,
    rnnScan, biLayer, upsampleNearest, linearMap, relu, dot, multinomialRow, item,
    rng0, List.range_succ]

/-- C6 amended: for every batch of two or more well-formed, nonempty
mel-spectrograms, `generate`'s loop aborts at its first step inside the
`wav_rnn` call: the hidden state is allocated as `(batch, 1, wav_rnn_dim)`
but `nn.GRU` requires `(num_layers, batch, hidden) = (1, batch, wav_rnn_dim)`,
which only coincide for a single batch element.  The scalar-conversion
`.item()` on line 82 (which itself requires a single-element tensor) is never
reached.  So generation is not vectorized across batch elements: it fails
outright for batch sizes greater than 1 instead of capturing any element's
sample. -/
theorem generate_batch_not_vectorized (m : UniversalVocoder) (hC : m.ValidConfig)
    (hP : m.ValidParams) (rng : ℕ → ℕ) (mels : List (List (List ℚ)))
    (hB : 2 ≤ mels.length)
    (hdim : ∀ mel ∈ mels, ∀ f ∈ mel, f.length = m.mel_dim)
    (hne : ∀ mel ∈ mels, 1 ≤ mel.length) :
    m.generateCompanded rng mels = .error gruHidErr :=
  generateCompanded_batch_error m hC hP rng mels hB hdim hne

/-- Witness for the amended C6 on a concrete batch of two 2-frame inputs. -/
theorem generate_batch_not_vectorized_witness :
    Mtest.generateCompanded rng0 [[[0], [0]], [[0], [0]]] = .error gruHidErr :=
  generate_batch_not_vectorized Mtest ⟨by decide, by decide, by decide⟩
    ⟨by decide, by decide, by decide⟩ rng0 [[[0], [0]], [[0], [0]]]
    (by decide) (by decide) (by decide)

/-- C7: the upsampler is exact at frame boundaries: for every frame index
`k < frames`, the upsampled conditioning vector at sample index
`k * hop_length` equals the source conditioning embedding at frame `k`
(exactly, hence in particular within interpolation tolerance). -/
theorem upsampleNearest_frame_boundary (hop : ℕ) (xs : List (List ℚ)) (k : ℕ)
    (hhop : 1 ≤ hop) (hk : k < xs.length) :
    (upsampleNearest hop xs).getD (k * hop) [] = xs.getD k [] := by
  rw [upsampleNearest_getD hop xs _ ((Nat.mul_lt_mul_right (by omega)).mpr hk),
    Nat.mul_div_cancel k (by omega : 0 < hop)]

/-- Witness for C7 at hop 2, frame index 1. -/
theorem upsampleNearest_frame_boundary_witness :
    (upsampleNearest 2 [[0], [1]]).getD (1 * 2) [] = [[0], [1]].getD 1 [] :=
  upsampleNearest_frame_boundary 2 [[0], [1]] 1 (by decide) (by decide)

/-- C8: every category fed to the sample-embedding lookup during `generate`
is an integer in `[0, 2^bits)`: the fixed neutral starting category
`quant_dim / 2` is in range (first conjunct; the loop state starts at
`replicate batch (quant_dim / 2)` by definition of `generateCompanded`);
every category sampled from a width-`quant_dim` categorical distribution is
in range (second conjunct); and consequently, on a well-formed
single-spectrogram batch the whole loop runs to completion without ever
hitting the embedding table's out-of-range error (third conjunct). -/
theorem generate_embedding_indices_in_range :
    (∀ m : UniversalVocoder, m.quantDim / 2 < m.quantDim) ∧
    (∀ (m : UniversalVocoder) (p : List ℚ) (r : ℕ), p.length = m.quantDim →
      multinomialRow p r < m.quantDim) ∧
    (∀ m : UniversalVocoder, m.ValidConfig → m.ValidParams →
      ∀ (rng : ℕ → ℕ) (mel : List (List ℚ)), (∀ f ∈ mel, f.length = m.mel_dim) →
        ∃ outs, m.generateCompanded rng [mel] = .ok outs) := by
  refine ⟨?_, ?_, ?_⟩
  · intro m
    exact Nat.div_lt_self (quantDim_pos m) one_lt_two
  · intro m p r hp
    have h := multinomialRow_lt p r (by rw [hp]; exact quantDim_pos m)
    rwa [hp] at h
  · intro m hC hP rng mel hdim
    obtain ⟨outs, hok, -, -⟩ := generateCompanded_singleton m hC hP rng mel hdim
    exact ⟨[outs], hok⟩

/-- Witness for C8 on the concrete miniature model. -/
theorem generate_embedding_indices_in_range_witness :
    Mtest.quantDim / 2 < Mtest.quantDim ∧
      multinomialRow [1/2, 1/2] 5 < Mtest.quantDim ∧
      ∃ outs, Mtest.generateCompanded rng0 [[[0]]] = .ok outs :=
  ⟨generate_embedding_indices_in_range.1 Mtest,
    generate_embedding_indices_in_range.2.1 Mtest [1/2, 1/2] 5 (by decide),
    generate_embedding_indices_in_range.2.2 Mtest ⟨by decide, by decide, by decide⟩
      ⟨by decide, by decide, by decide⟩ rng0 [[0]] (by decide)⟩

/-- C9: generation is deterministic given the randomness source: the whole
`generate` computation is a pure function of the model parameters, the
random stream feeding the categorical sampling step, and the mel input, so
two calls with the same stream and identical inputs produce identical
output waveforms. -/
theorem generate_deterministic (m : UniversalVocoder) (rng : ℕ → ℕ)
    (mels1 mels2 : List (List (List ℚ))) (h : mels1 = mels2) :
    m.generate rng mels1 = m.generate rng mels2 := by
  rw [h]

/-- Witness for C9 on concrete identical inputs. -/
theorem generate_deterministic_witness :
    Mtest.generate rng0 [[[0]]] = Mtest.generate rng0 [[[0]]] :=
  generate_deterministic Mtest rng0 [[[0]]] [[[0]]] rfl

/-- C10: dimension mismatches fail fast with the corresponding descriptive
PyTorch error and produce no output (an `Except.error` result carries no
partial waveform): a mel frame whose feature width differs from the
configured `mel_dim` makes both `forward` and `generate` fail with the GRU
input-size error before anything else runs, and a training waveform whose
length differs from `frames_per_slice * hop_length` makes `forward` fail
with the `torch.cat` size-mismatch error — never a silent broadcast or
truncation. -/
theorem dimension_mismatch_fails_fast :
    (∀ (m : UniversalVocoder) (wavs : List (List ℕ)) (mels : List (List (List ℚ))),
      (∃ mel ∈ mels, ∃ f ∈ mel, f.length ≠ m.mel_dim) →
        m.forward wavs mels = .error melDimErr) ∧
    (∀ (m : UniversalVocoder) (rng : ℕ → ℕ) (mels : List (List (List ℚ))),
      (∃ mel ∈ mels, ∃ f ∈ mel, f.length ≠ m.mel_dim) →
        m.generate rng mels = .error melDimErr) ∧
    (∀ m : UniversalVocoder, m.ValidConfig → m.ValidParams →
      ∀ (wavs : List (List ℕ)) (mels : List (List (List ℚ))),
      wavs.length = mels.length →
      (∀ mel ∈ mels, mel.length = m.frames_per_sample ∧
        ∀ f ∈ mel, f.length = m.mel_dim) →
      (∀ seq ∈ wavs, ∀ w ∈ seq, w < m.quantDim) →
      (∃ seq ∈ wavs, seq.length ≠ m.frames_per_slice * m.hop_length) →
        m.forward wavs mels = .error catDimErr) :=
  ⟨forward_melDim_error, generate_melDim_error, forward_catDim_error⟩

/-- Witness for C10: a 2-wide mel frame against `mel_dim = 1` fails both
entry points with the GRU error; a length-3 waveform against slice length 4
fails `forward` with the `torch.cat` error. -/
theorem dimension_mismatch_fails_fast_witness :
    Mtest.forward [] [[[0, 0]]] = .error melDimErr ∧
      Mtest.generate rng0 [[[0, 0]]] = .error melDimErr ∧
      Mtest.forward [[0, 0, 0]] [[[0], [0]]] = .error catDimErr :=
  ⟨dimension_mismatch_fails_fast.1 Mtest [] [[[0, 0]]]
      ⟨[[0, 0]], List.mem_cons_self _ _, [0, 0], List.mem_cons_self _ _, by decide⟩,
    dimension_mismatch_fails_fast.2.1 Mtest rng0 [[[0, 0]]]
      ⟨[[0, 0]], List.mem_cons_self _ _, [0, 0], List.mem_cons_self _ _, by decide⟩,
    dimension_mismatch_fails_fast.2.2 Mtest ⟨by decide, by decide, by decide⟩
      ⟨by decide, by decide, by decide⟩ [[0, 0, 0]] [[[0], [0]]]
      (by decide) (by decide) (by decide)
      ⟨[0, 0, 0], List.mem_cons_self _ _, by decide⟩⟩

